import Mathlib

/-!
Verification development for the `graph_depth_research` repository.

The embedding models the two core stages of the pipeline:

* `src/entity_extractor.py` — entity normalization (`_to_camel_case`),
  similarity deduplication (`_deduplicate`), per-document processing
  (`_process_file`) and the run loop (`run`);
* `src/graph_buider.py` — relation validation and graph assembly
  (`_add_triples`, `_link_documents`), and the required-files check
  (`_check_required_files`).

Python strings are modelled over their character lists; character
classes (`\w`, `\s`, `str.lower`, `str.capitalize`) are modelled on the
ASCII fragment, which is the fragment all claims and counterexamples
live in.  The external `textdistance.jaro_winkler` similarity, like the
LLM oracle, is an out-of-scope collaborator: the deduplicator is
parameterized by the similarity function, and a concrete model
`jaroWinkler` (the standard Jaro–Winkler algorithm) is provided for
evaluating concrete inputs.
-/

/-- Model of Python `str.isspace` membership for the characters the
`str.split()` / `str.strip()` calls in the source treat as whitespace
(ASCII fragment of Python whitespace). -/
def pyIsSpace (c : Char) : Bool :=
  c == ' ' || c == '\t' || c == '\n' || c == '\r' || c == '\x0b' || c == '\x0c'

/-- Model of Python `str.strip()` on a character list: drop whitespace
from both ends. -/
def pyStripList (l : List Char) : List Char :=
  ((l.dropWhile pyIsSpace).reverse.dropWhile pyIsSpace).reverse

/-- Model of Python `str.strip()` as used in `EntityExtractor._deduplicate`. -/
def pyStrip (s : String) : String :=
  ⟨pyStripList s.data⟩

/-- Model of Python `str.lower()` (ASCII fragment), as used in
`EntityExtractor._deduplicate` before the similarity comparison. -/
def pyLower (s : String) : String :=
  ⟨s.data.map Char.toLower⟩

/-- Character class of Python's regex `\w` (ASCII fragment):
alphanumeric or underscore. -/
def pyIsWordChar (c : Char) : Bool :=
  c.isAlphanum || c == '_'

/-- Characters kept by `re.sub(r"[^\w\s]", "", text)` in
`EntityExtractor._to_camel_case`: word characters and whitespace. -/
def pyKeepChar (c : Char) : Bool :=
  pyIsWordChar c || pyIsSpace c

/-- Model of `re.sub(r"[^\w\s]", "", text)`: delete every character that
is neither a word character nor whitespace. -/
def reSubClean (l : List Char) : List Char :=
  l.filter pyKeepChar

/-- Model of Python `str.capitalize()`: first character upper-cased, all
remaining characters lower-cased (ASCII fragment). -/
def pyCapitalize : List Char → List Char
  | [] => []
  | c :: rest => c.toUpper :: rest.map Char.toLower

/-- Accumulating worker for `str.split()`: split on whitespace runs,
dropping empty fragments.  `cur` is the current token, reversed. -/
def splitWsAux : List Char → List Char → List (List Char)
  | [], cur => if cur = [] then [] else [cur.reverse]
  | c :: rest, cur =>
    if pyIsSpace c then
      if cur = [] then splitWsAux rest []
      else cur.reverse :: splitWsAux rest []
    else splitWsAux rest (c :: cur)

/-- Model of Python `str.split()` with no argument. -/
def pySplitWs (l : List Char) : List (List Char) :=
  splitWsAux l []

/-- List-level body of `EntityExtractor._to_camel_case`:
`"".join(w.capitalize() for w in re.sub(r"[^\w\s]", "", text).split())`. -/
def toCamelCaseList (l : List Char) : List Char :=
  ((pySplitWs (reSubClean l)).map pyCapitalize).flatten

/-- Model of `EntityExtractor._to_camel_case` (the entity normalizer). -/
def toCamelCase (s : String) : String :=
  ⟨toCamelCaseList s.data⟩

/-- Stop-word set `EntityExtractor.STOPWORDS` from the source. -/
def STOPWORDS : List String :=
  ["App", "Application", "Data", "File", "System",
   "Приложение", "Данные", "Система", "Файл"]

/-- Duplicate-similarity threshold `EntityExtractor.DUP_THRESHOLD = 0.85`. -/
def DUP_THRESHOLD : ℚ := 17 / 20

/-- Accumulator loop of `EntityExtractor._deduplicate`, parameterized by
the external similarity function (`textdistance.jaro_winkler` in the
source).  Each candidate is stripped; it is dropped when its length is
at most 2 or it is a stop word, or when some already-accepted string is
more similar than the threshold; otherwise it is appended to `uniq`. -/
def dedupAccum (sim : String → String → ℚ) (uniq : List String) :
    List String → List String
  | [] => uniq
  | e :: rest =>
    let ent := pyStrip e
    if ent.length ≤ 2 ∨ ent ∈ STOPWORDS then
      dedupAccum sim uniq rest
    else if ∃ u ∈ uniq, sim (pyLower ent) (pyLower u) > DUP_THRESHOLD then
      dedupAccum sim uniq rest
    else
      dedupAccum sim (uniq ++ [ent]) rest

/-- Model of `EntityExtractor._deduplicate`: run the accumulator over
the input in order, then return `sorted(uniq)` (Python sorts strings
lexicographically by code point, which insertion sort by `≤` on `String`
computes). -/
def deduplicate (sim : String → String → ℚ) (ents : List String) : List String :=
  List.insertionSort (fun a b => a ≤ b) (dedupAccum sim [] ents)

/-- Search for the first index `j` in `js` at which `t` has an unflagged
character equal to `c` (the inner loop of the Jaro matching phase). -/
def jwFindIdx (c : Char) (t : List Char) (flags : List Bool) (js : List Nat) :
    Option Nat :=
  js.find? (fun j => !(flags.getD j true) && (t.get? j == some c))

/-- Matching phase of the Jaro similarity: for each character of `s` (at
index `i`), greedily match the first unflagged equal character of `t`
within the search window.  Returns the final flags over `t` and the
matched characters of `s` in order. -/
def jwMatchLoop (sr : Nat) (t : List Char) :
    List Char → Nat → List Bool → List Bool × List Char
  | [], _, flags => (flags, [])
  | c :: rest, i, flags =>
    let lo := i - sr
    let hi := min (i + sr) (t.length - 1)
    match jwFindIdx c t flags (List.range' lo (hi + 1 - lo)) with
    | some j =>
      let res := jwMatchLoop sr t rest (i + 1) (flags.set j true)
      (res.1, c :: res.2)
    | none => jwMatchLoop sr t rest (i + 1) flags

/-- Jaro similarity on character lists (model of the external
`textdistance` collaborator): matched characters within the usual search
window, half-transposition count, averaged over the three ratios. -/
def jaroSim (s t : List Char) : ℚ :=
  if s = t then 1
  else if s = [] ∨ t = [] then 0
  else
    let sr := max s.length t.length / 2 - 1
    let p := jwMatchLoop sr t s 0 (List.replicate t.length false)
    let m := p.2.length
    if m = 0 then 0
    else
      let mt := (t.zip p.1).filterMap (fun q => if q.2 then some q.1 else none)
      let trans := ((p.2.zip mt).countP (fun q => decide (q.1 ≠ q.2))) / 2
      ((m : ℚ) / s.length + (m : ℚ) / t.length + ((m : ℚ) - (trans : ℚ)) / m) / 3

/-- Length of the common leading run of two character lists. -/
def commonStartLen : List Char → List Char → Nat
  | a :: as, b :: bs => if a = b then commonStartLen as bs + 1 else 0
  | _, _ => 0

/-- Model of the external `textdistance.jaro_winkler` similarity: Jaro
similarity with the Winkler common-start bonus (weight 0.1, start capped
at 4) applied when the Jaro score exceeds 0.7. -/
def jaroWinkler (a b : String) : ℚ :=
  let j := jaroSim a.data b.data
  if j > 7 / 10 then
    j + (min (commonStartLen a.data b.data) 4 : ℚ) * (1 / 10) * (1 - j)
  else j

/-- Try to match the regex `doc_id:\s*(\d+)` at the current position:
`pat` is the still-unconsumed literal header `doc_id:`; on success the
captured digit run is returned.  Since no whitespace character is a
digit, the greedy `\s*` followed by `\d+` matches exactly when, after
skipping all whitespace, at least one digit follows. -/
def matchDocIdHere : List Char → List Char → Option (List Char)
  | [], rest =>
    let r := rest.dropWhile pyIsSpace
    let ds := r.takeWhile Char.isDigit
    if ds = [] then none else some ds
  | _ :: _, [] => none
  | p :: ps, c :: cs => if c = p then matchDocIdHere ps cs else none

/-- Model of `re.search(r"doc_id:\s*(\d+)", content)` in
`EntityExtractor._process_file`: scan the whole content left to right
and return the first match's captured digits. -/
def searchDocId : List Char → Option (List Char)
  | [] => none
  | c :: rest =>
    match matchDocIdHere "doc_id:".data (c :: rest) with
    | some ds => some ds
    | none => searchDocId rest

/-- First line of a document body (used to state what the claimed
first-line-only parse would see). -/
def firstLine (s : String) : String :=
  ⟨s.data.takeWhile (fun c => c ≠ '\n')⟩

/-- Portion of the content after the first newline, or `none` when there
is none — `content.split("\n", 1)[1]` raises `IndexError` in that case,
which the surrounding `try` of `_process_file` turns into a skip. -/
def afterFirstNewline : List Char → Option (List Char)
  | [] => none
  | c :: rest => if c = '\n' then some rest else afterFirstNewline rest

/-- Chunk size `EntityExtractor.MAX_CHUNK_SIZE = 8000`. -/
def MAX_CHUNK_SIZE : Nat := 8000

/-- Fuel-driven worker for `chunksOf`; the fuel is an upper bound on the
number of chunks still to produce, so structural recursion on it never
cuts the computation short when it starts at the body length. -/
def chunksOfAux (n : Nat) : Nat → List Char → List (List Char)
  | 0, _ => []
  | _, [] => []
  | f + 1, c :: rest =>
    (c :: rest).take (n + 1) :: chunksOfAux n f ((c :: rest).drop (n + 1))

/-- Successive chunks of `n + 1` characters: model of
`[body[i : i + N] for i in range(0, len(body), N)]` with `N = n + 1`
(the `n + 1` form keeps the chunk size positive by construction).
An empty body yields no chunks. -/
def chunksOf (n : Nat) (l : List Char) : List (List Char) :=
  chunksOfAux n l.length l

/-- Model of `EntityExtractor._process_file`, parameterized by the
external LLM oracle (one candidate-entity list per chunk; oracle errors
are already folded into a returned empty list, as in `_fetch_async`).
Returns the `{doc_id: cleaned}` mapping entry, or `none` when the
document is skipped (no `doc_id` pattern anywhere in the content, no
newline, or an empty cleaned entity list). -/
def processFile (oracle : List Char → List String) (content : String) :
    Option (String × List String) :=
  match searchDocId content.data with
  | none => none
  | some ds =>
    match afterFirstNewline content.data with
    | none => none
    | some body =>
      let chunks := chunksOf (MAX_CHUNK_SIZE - 1) body
      let raw := (chunks.map oracle).flatten
      let cleaned := deduplicate jaroWinkler (raw.map toCamelCase)
      if cleaned = [] then none else some (⟨ds⟩, cleaned)

/-- Python `dict.update({k: v})` on an association list: overwrite the
value at an existing key, otherwise append the binding. -/
def dictUpdate (m : List (String × List String)) (kv : String × List String) :
    List (String × List String) :=
  if m.any (fun p => p.1 == kv.1) then
    m.map (fun p => if p.1 == kv.1 then kv else p)
  else m ++ [kv]

/-- Model of `EntityExtractor.run`: `files` is the list of `*.txt`
document bodies (in sorted filename order).  The run returns `none` when
nothing is written — no files, or every document was skipped or empty —
leaving any previously existing `doc_entities.json` untouched; otherwise
`some result` models atomically replacing the artifact with `result`. -/
def extractorRun (oracle : List Char → List String) (files : List String) :
    Option (List (String × List String)) :=
  if files = [] then none
  else
    let result := files.foldl
      (fun acc c =>
        match processFile oracle c with
        | none => acc
        | some kv => dictUpdate acc kv) []
    if result = [] then none else some result

/-- Attribute dictionary of a `networkx` node as used by the source:
the `type` kind tag and the optional integer `doc_id`.  A node created
implicitly by `add_edge` has neither attribute. -/
structure NodeData where
  typ : Option String
  docId : Option Int
deriving DecidableEq

/-- Model of the `networkx.MultiDiGraph` state the builder mutates:
nodes as an insertion-ordered association list from name to attribute
dictionary, and edges as an insertion-ordered list of
`(source, target, rel)` — a multigraph, so the edge list may repeat. -/
structure Graph where
  nodes : List (String × NodeData)
  edges : List (String × String × String)
deriving DecidableEq

/-- The empty graph created in `GraphBuilder.__init__`. -/
def emptyMultiGraph : Graph := ⟨[], []⟩

/-- Does the graph already contain a node with this name? -/
def hasNode (g : Graph) (n : String) : Bool :=
  g.nodes.any (fun p => p.1 == n)

/-- Model of `networkx` `add_node(n, **attrs)`: if the node exists, its
attribute dictionary is updated in place by `upd`; otherwise the node is
appended with `upd` applied to the empty attribute dictionary. -/
def addNodeWith (g : Graph) (n : String) (upd : NodeData → NodeData) : Graph :=
  if hasNode g n then
    ⟨g.nodes.map (fun p => if p.1 = n then (p.1, upd p.2) else p), g.edges⟩
  else
    ⟨g.nodes ++ [(n, upd ⟨none, none⟩)], g.edges⟩

/-- `self.graph.add_node(x, type="entity")`: sets the kind tag, leaving
any other attribute (`doc_id`) untouched, as `dict.update` does. -/
def addEntityNode (g : Graph) (n : String) : Graph :=
  addNodeWith g n (fun nd => ⟨some "entity", nd.docId⟩)

/-- `self.graph.add_node(doc_node, type="document", doc_id=k)`. -/
def addDocumentNode (g : Graph) (n : String) (k : Int) : Graph :=
  addNodeWith g n (fun _ => ⟨some "document", some k⟩)

/-- `add_edge` implicitly creates missing endpoints with no attributes. -/
def ensureNode (g : Graph) (n : String) : Graph :=
  if hasNode g n then g else ⟨g.nodes ++ [(n, ⟨none, none⟩)], g.edges⟩

/-- Model of `MultiDiGraph.add_edge(u, v, rel=r)`: always appends a new
parallel edge. -/
def addEdge (g : Graph) (u v r : String) : Graph :=
  let g2 := ensureNode (ensureNode g u) v
  ⟨g2.nodes, g2.edges ++ [(u, v, r)]⟩

/-- Relation vocabulary `ALLOWED_RELS` from `graph_buider.py`, including
the structural `mentions` relation. -/
def ALLOWED_RELS : List String :=
  ["defines", "uses", "depends_on", "implements", "part_of", "type_of",
   "runs_on", "opposite_of", "mentions"]

/-- The eight semantic relations of the vocabulary, as the claim lists
them; `_add_triples` computes this set as `ALLOWED_RELS - {"mentions"}`. -/
def semanticRels : List String :=
  ["defines", "uses", "depends_on", "implements", "part_of", "type_of",
   "runs_on", "opposite_of"]

/-- Loop of `GraphBuilder._add_triples` with its seen-set: a triple is
skipped when its relation is not in `ALLOWED_RELS - {"mentions"}` or the
exact `(head, rel, tail)` key was already added; otherwise both
endpoints are ensured as entity nodes and one edge is added. -/
def addTriplesGo (g : Graph) (seen : List (String × String × String)) :
    List (String × String × String) → Graph
  | [] => g
  | (h, r, t) :: rest =>
    if r ∈ ALLOWED_RELS ∧ r ≠ "mentions" then
      if (h, r, t) ∈ seen then addTriplesGo g seen rest
      else
        addTriplesGo (addEdge (addEntityNode (addEntityNode g h) t) h t r)
          ((h, r, t) :: seen) rest
    else addTriplesGo g seen rest

/-- Model of `GraphBuilder._add_triples` starting from an empty seen-set. -/
def addTriples (g : Graph) (ts : List (String × String × String)) : Graph :=
  addTriplesGo g [] ts

/-- Inner loop of `GraphBuilder._link_documents`: for each entity of the
document, ensure the entity node and add a `mentions` edge to the
document node. -/
def linkEntities (g : Graph) (docNode : String) : List String → Graph
  | [] => g
  | e :: rest => linkEntities (addEdge (addEntityNode g e) e docNode "mentions") docNode rest

/-- Model of Python `int(doc_id)` on the digit-string keys the pipeline
produces (`doc_id` is captured by `\d+`): `none` models the `ValueError`
a non-digit key would raise. -/
def pyIntOfKey (s : String) : Option Int :=
  if s.data ≠ [] ∧ s.data.all Char.isDigit then
    some (s.data.foldl (fun a c => a * 10 + (c.toNat - 48)) 0 : Nat)
  else none

/-- Model of `GraphBuilder._link_documents`: for each `(doc_id, ents)`
item create the `DOC_<doc_id>` document node (`int(doc_id)` raising on a
non-numeric key is modelled as `none`) and link its entities. -/
def linkDocumentsGo (g : Graph) : List (String × List String) → Option Graph
  | [] => some g
  | (d, ents) :: rest =>
    match pyIntOfKey d with
    | none => none
    | some k =>
      linkDocumentsGo (linkEntities (addDocumentNode g ("DOC_" ++ d) k) ("DOC_" ++ d) ents) rest

/-- The assembly pipeline of `GraphBuilder.run` that mutates the graph:
`_add_triples` over the triple list, then `_link_documents` over the
document–entity mapping (as an insertion-ordered association list). -/
def assemble (ts : List (String × String × String))
    (docs : List (String × List String)) : Option Graph :=
  linkDocumentsGo (addTriples emptyMultiGraph ts) docs

/-- Edge list of an optional graph (no graph means no edges were built). -/
def edgesOf : Option Graph → List (String × String × String)
  | none => []
  | some g => g.edges

/-- Node list of an optional graph. -/
def nodesOf : Option Graph → List (String × NodeData)
  | none => []
  | some g => g.nodes

/-- Attribute dictionary of the named node (`G.nodes[n]` in networkx):
first binding with that name, `none` when absent. -/
def lookupNode : List (String × NodeData) → String → Option NodeData
  | [], _ => none
  | p :: rest, n => if p.1 = n then some p.2 else lookupNode rest n

/-- Required input artifacts checked by
`GraphBuilder._check_required_files`, in source order. -/
def requiredFiles (corpus : String) : List String :=
  [corpus ++ "/doc_entities.json", corpus ++ "/triples.json"]

/-- Error message raised for a missing required file. -/
def missingFileMsg (p : String) : String :=
  "Не найден файл: " ++ p

/-- Model of `GraphBuilder._check_required_files`: fail on the first
required path that does not exist. -/
def checkRequiredFiles (present : String → Bool) (corpus : String) :
    Except String Unit :=
  match (requiredFiles corpus).find? (fun p => !(present p)) with
  | some p => Except.error (missingFileMsg p)
  | none => Except.ok ()

/-- Model of `GraphBuilder.__init__`: the empty graph is created and the
required-files check runs before anything is loaded or added, so on
failure no graph object survives — assembly never starts. -/
def initGraphBuilder (present : String → Bool) (corpus : String) :
    Except String Graph :=
  match checkRequiredFiles present corpus with
  | Except.error e => Except.error e
  | Except.ok _ => Except.ok emptyMultiGraph

/-! ### General lemmas about the graph operations -/

lemma addNodeWith_edges (g : Graph) (n : String) (upd : NodeData → NodeData) :
    (addNodeWith g n upd).edges = g.edges := by
  unfold addNodeWith
  split <;> rfl

lemma addEntityNode_edges (g : Graph) (n : String) :
    (addEntityNode g n).edges = g.edges :=
  addNodeWith_edges ..

lemma addDocumentNode_edges (g : Graph) (n : String) (k : Int) :
    (addDocumentNode g n k).edges = g.edges :=
  addNodeWith_edges ..

lemma ensureNode_edges (g : Graph) (n : String) :
    (ensureNode g n).edges = g.edges := by
  unfold ensureNode
  split <;> rfl

lemma addEdge_edges (g : Graph) (u v r : String) :
    (addEdge g u v r).edges = g.edges ++ [(u, v, r)] := by
  simp [addEdge, ensureNode_edges]

/-- Relation-validation predicate of `_add_triples` versus the eight
semantic relations the spec enumerates. -/
lemma valid_rel_iff (r : String) :
    (r ∈ ALLOWED_RELS ∧ r ≠ "mentions") ↔ r ∈ semanticRels := by
  constructor
  · rintro ⟨h1, h2⟩
    simp only [ALLOWED_RELS, List.mem_cons, List.not_mem_nil, or_false] at h1
    simp only [semanticRels, List.mem_cons, List.not_mem_nil, or_false]
    tauto
  · intro hs
    simp only [semanticRels, List.mem_cons, List.not_mem_nil, or_false] at hs
    refine ⟨?_, ?_⟩
    · simp only [ALLOWED_RELS, List.mem_cons, List.not_mem_nil, or_false]
      tauto
    · rcases hs with rfl | rfl | rfl | rfl | rfl | rfl | rfl | rfl <;> decide

/-- Membership characterization of the `_add_triples` loop: an edge is
in the result exactly when it was already present or comes from a
validated triple of the remaining input. -/
lemma addTriplesGo_mem (ts : List (String × String × String)) :
    ∀ g seen, (∀ k ∈ seen, (k.1, k.2.2, k.2.1) ∈ g.edges) →
    ∀ e, e ∈ (addTriplesGo g seen ts).edges ↔
      (e ∈ g.edges ∨
        ∃ x ∈ ts, e = (x.1, x.2.2, x.2.1) ∧ x.2.1 ∈ ALLOWED_RELS ∧ x.2.1 ≠ "mentions") := by
  induction ts with
  | nil => intro g seen _ e; simp [addTriplesGo]
  | cons hd rest ih =>
    obtain ⟨h, r, t⟩ := hd
    intro g seen hseen e
    by_cases hv : r ∈ ALLOWED_RELS ∧ r ≠ "mentions"
    · by_cases hs : (h, r, t) ∈ seen
      · rw [addTriplesGo, if_pos hv, if_pos hs, ih g seen hseen e]
        have hmem : ((h, r, t) : String × String × String).1 = h := rfl
        have he : ((h, t, r) : String × String × String) ∈ g.edges := hseen (h, r, t) hs
        constructor
        · rintro (hg | ⟨x, hx, hex, hxv⟩)
          · exact Or.inl hg
          · exact Or.inr ⟨x, List.mem_cons_of_mem _ hx, hex, hxv⟩
        · rintro (hg | ⟨x, hx, hex, hxv⟩)
          · exact Or.inl hg
          · rcases List.mem_cons.mp hx with rfl | hx'
            · exact Or.inl (hex ▸ he)
            · exact Or.inr ⟨x, hx', hex, hxv⟩
      · rw [addTriplesGo, if_pos hv, if_neg hs]
        have hseen' : ∀ k ∈ ((h, r, t) :: seen),
            (k.1, k.2.2, k.2.1) ∈ (addEdge (addEntityNode (addEntityNode g h) t) h t r).edges := by
          intro k hk
          rw [addEdge_edges, addEntityNode_edges, addEntityNode_edges]
          rcases List.mem_cons.mp hk with rfl | hk'
          · exact List.mem_append_right _ (by simp)
          · exact List.mem_append_left _ (hseen k hk')
        rw [ih _ _ hseen' e, addEdge_edges, addEntityNode_edges, addEntityNode_edges]
        simp only [List.mem_append, List.mem_singleton, List.mem_cons,
          List.not_mem_nil, or_false]
        constructor
        · rintro ((hg | hnew) | ⟨x, hx, hex, hxv⟩)
          · exact Or.inl hg
          · exact Or.inr ⟨(h, r, t), Or.inl rfl, hnew, hv.1, hv.2⟩
          · exact Or.inr ⟨x, Or.inr hx, hex, hxv⟩
        · rintro (hg | ⟨x, hx, hex, hxv⟩)
          · exact Or.inl (Or.inl hg)
          · rcases hx with rfl | hx'
            · exact Or.inl (Or.inr hex)
            · exact Or.inr ⟨x, hx', hex, hxv⟩
    · rw [addTriplesGo, if_neg hv, ih g seen hseen e]
      constructor
      · rintro (hg | ⟨x, hx, hex, hxv⟩)
        · exact Or.inl hg
        · exact Or.inr ⟨x, List.mem_cons_of_mem _ hx, hex, hxv⟩
      · rintro (hg | ⟨x, hx, hex, hxv⟩)
        · exact Or.inl hg
        · rcases List.mem_cons.mp hx with rfl | hx'
          · exact absurd ⟨hxv.1, hxv.2⟩ hv
          · exact Or.inr ⟨x, hx', hex, hxv⟩

/-- Count characterization of the `_add_triples` loop: with the
seen-set invariant, every edge multiplicity stays at most one. -/
lemma addTriplesGo_count (ts : List (String × String × String)) :
    ∀ g seen,
    (∀ e : String × String × String,
      List.count e g.edges ≤ 1 ∧ (1 ≤ List.count e g.edges → (e.1, e.2.2, e.2.1) ∈ seen)) →
    ∀ e, List.count e (addTriplesGo g seen ts).edges ≤ 1 := by
  induction ts with
  | nil => intro g seen hinv e; exact (hinv e).1
  | cons hd rest ih =>
    obtain ⟨h, r, t⟩ := hd
    intro g seen hinv e
    by_cases hv : r ∈ ALLOWED_RELS ∧ r ≠ "mentions"
    · by_cases hs : (h, r, t) ∈ seen
      · rw [addTriplesGo, if_pos hv, if_pos hs]
        exact ih g seen hinv e
      · rw [addTriplesGo, if_pos hv, if_neg hs]
        refine ih _ _ ?_ e
        intro x
        rw [addEdge_edges, addEntityNode_edges, addEntityNode_edges,
          List.count_append]
        by_cases hx : x = (h, t, r)
        · subst hx
          have h0 : List.count ((h, t, r) : String × String × String) g.edges = 0 := by
            by_contra hc
            exact hs ((hinv (h, t, r)).2 (Nat.one_le_iff_ne_zero.mpr hc))
          simp [h0, List.count_singleton, List.mem_cons]
        · have hcx : List.count x [((h, t, r) : String × String × String)] = 0 := by
            simp [List.count_singleton]
            exact fun hc => absurd hc.symm hx
          rw [hcx, Nat.add_zero]
          exact ⟨(hinv x).1, fun h1 => List.mem_cons_of_mem _ ((hinv x).2 h1)⟩
    · rw [addTriplesGo, if_neg hv]
      exact ih g seen hinv e

/-- Edges added by the `_link_documents` inner loop: one `mentions` edge
per occurrence of an entity in the document's list, in order. -/
lemma linkEntities_edges (ents : List String) :
    ∀ g docNode, (linkEntities g docNode ents).edges =
      g.edges ++ ents.map (fun x => (x, docNode, "mentions")) := by
  induction ents with
  | nil => intro g docNode; simp [linkEntities]
  | cons e rest ih =>
    intro g docNode
    rw [linkEntities, ih, addEdge_edges, addEntityNode_edges]
    simp

/-- Edges added by `_link_documents` overall: some list of `mentions`
edges appended to the existing edge list. -/
lemma linkDocumentsGo_edges (docs : List (String × List String)) :
    ∀ g g2, linkDocumentsGo g docs = some g2 →
      ∃ ms, g2.edges = g.edges ++ ms ∧ ∀ x ∈ ms, x.2.2 = "mentions" := by
  induction docs with
  | nil =>
    intro g g2 hg
    simp only [linkDocumentsGo, Option.some.injEq] at hg
    exact ⟨[], by simp [← hg], by simp⟩
  | cons hd rest ih =>
    obtain ⟨d, ents⟩ := hd
    intro g g2 hg
    rw [linkDocumentsGo] at hg
    cases hk : pyIntOfKey d with
    | none => rw [hk] at hg; exact absurd hg (by simp)
    | some k =>
      rw [hk] at hg
      obtain ⟨ms', hms', hall'⟩ := ih _ _ hg
      rw [linkEntities_edges, addDocumentNode_edges] at hms'
      refine ⟨ents.map (fun x => (x, "DOC_" ++ d, "mentions")) ++ ms', by simp [hms'], ?_⟩
      intro x hx
      rcases List.mem_append.mp hx with hx' | hx'
      · obtain ⟨y, _, rfl⟩ := List.mem_map.mp hx'
        rfl
      · exact hall' x hx'

lemma lookupNode_hasNode : ∀ (nodes : List (String × NodeData)) (n : String) (nd : NodeData),
    lookupNode nodes n = some nd → nodes.any (fun p => p.1 == n) = true := by
  intro nodes
  induction nodes with
  | nil => intro n nd hl; exact absurd hl (by simp [lookupNode])
  | cons p rest ih =>
    intro n nd hl
    rw [lookupNode] at hl
    by_cases hp : p.1 = n
    · simp [List.any_cons, hp]
    · rw [if_neg hp] at hl
      simp [List.any_cons, ih n nd hl]

lemma map_update_noKey (upd : NodeData → NodeData) (n : String) :
    ∀ (nodes : List (String × NodeData)), (∀ p ∈ nodes, p.1 ≠ n) →
    nodes.map (fun p => if p.1 = n then (p.1, upd p.2) else p) = nodes := by
  intro nodes
  induction nodes with
  | nil => intro _; rfl
  | cons p rest ih =>
    intro hk
    simp only [List.map_cons, if_neg (hk p (List.mem_cons_self p rest))]
    rw [ih (fun q hq => hk q (List.mem_cons_of_mem p hq))]

lemma map_update_eq_self (upd : NodeData → NodeData) (n : String) :
    ∀ (nodes : List (String × NodeData)) (nd : NodeData),
    (nodes.map Prod.fst).Nodup → lookupNode nodes n = some nd → upd nd = nd →
    nodes.map (fun p => if p.1 = n then (p.1, upd p.2) else p) = nodes := by
  intro nodes
  induction nodes with
  | nil => intro nd _ hl _; exact absurd hl (by simp [lookupNode])
  | cons p rest ih =>
    intro nd hnodup hl hupd
    rw [List.map_cons, List.nodup_cons] at hnodup
    rw [lookupNode] at hl
    by_cases hp : p.1 = n
    · rw [if_pos hp] at hl
      have hnd : p.2 = nd := by injection hl
      have hupd2 : upd p.2 = p.2 := by rw [hnd]; exact hupd
      have hrest : ∀ q ∈ rest, q.1 ≠ n := by
        intro q hq hqn
        exact hnodup.1 (hp ▸ hqn ▸ List.mem_map_of_mem Prod.fst hq)
      simp only [List.map_cons, if_pos hp, hupd2]
      rw [map_update_noKey upd n rest hrest]
    · rw [if_neg hp] at hl
      simp only [List.map_cons, if_neg hp]
      rw [ih nd hnodup.2 hl hupd]

lemma addNodeWith_eq_self (g : Graph) (n : String) (upd : NodeData → NodeData)
    (nd : NodeData) (hnodup : (g.nodes.map Prod.fst).Nodup)
    (hl : lookupNode g.nodes n = some nd) (hupd : upd nd = nd) :
    addNodeWith g n upd = g := by
  have hh : hasNode g n = true := lookupNode_hasNode g.nodes n nd hl
  rw [addNodeWith, if_pos hh, map_update_eq_self upd n g.nodes nd hnodup hl hupd]

/-! ### Settled claims about graph assembly -/

/-- C1: relation validation accepts a raw triple `(head, relation, tail)`
iff its relation is one of the eight semantic vocabulary members — in
particular `mentions` (absent from `semanticRels`) and unknown relations
are dropped — and every accepted triple appears as an edge with head,
relation and tail strings unchanged. -/
theorem relation_validation_accepts_iff_semantic
    (ts : List (String × String × String)) (h r t : String) :
    (h, t, r) ∈ (addTriples emptyMultiGraph ts).edges ↔
      ((h, r, t) ∈ ts ∧ r ∈ semanticRels) := by
  rw [addTriples,
    addTriplesGo_mem ts emptyMultiGraph [] (by intro k hk; exact absurd hk (by simp)) (h, t, r)]
  have hempty : emptyMultiGraph.edges = [] := rfl
  rw [hempty]
  simp only [List.not_mem_nil, false_or]
  constructor
  · rintro ⟨⟨x1, x2, x3⟩, hx, hex, hv1, hv2⟩
    have hex' : h = x1 ∧ t = x3 ∧ r = x2 := by
      simpa [Prod.ext_iff] using hex
    obtain ⟨rfl, rfl, rfl⟩ := hex'
    exact ⟨hx, (valid_rel_iff _).mp ⟨hv1, hv2⟩⟩
  · rintro ⟨hts, hsem⟩
    have hv := (valid_rel_iff r).mpr hsem
    exact ⟨(h, r, t), hts, rfl, hv.1, hv.2⟩

/-- C2 counterexample: a document entity list containing the same entity
twice produces two parallel `mentions` edges — duplicate
`(head, relation, tail)` combinations are not collapsed for the edges
built from the per-document entity lists. -/
theorem mentions_duplicate_not_collapsed :
    List.count ("Kernel", "DOC_1", "mentions")
      (edgesOf (assemble [] [("1", ["Kernel", "Kernel"])])) = 2 := by
  decide

/-- C2 (amended): duplicate `(head, relation kind, tail)` collapsing
holds for every non-`mentions` relation kind — the triple pass
deduplicates via its seen-set and the linking pass only adds `mentions`
edges — but `mentions` edges are added once per occurrence of an entity
in a document's list, so duplicates there are not collapsed. -/
theorem semantic_edges_collapsed (ts : List (String × String × String))
    (docs : List (String × List String)) (u v r : String) (hr : r ≠ "mentions") :
    List.count (u, v, r) (edgesOf (assemble ts docs)) ≤ 1 := by
  unfold assemble
  cases hR : linkDocumentsGo (addTriples emptyMultiGraph ts) docs with
  | none => simp [edgesOf]
  | some g2 =>
    obtain ⟨ms, hms, hall⟩ := linkDocumentsGo_edges docs _ _ hR
    simp only [edgesOf]
    rw [hms, List.count_append]
    have h1 : List.count (u, v, r) (addTriples emptyMultiGraph ts).edges ≤ 1 := by
      refine addTriplesGo_count ts emptyMultiGraph [] ?_ (u, v, r)
      intro e
      refine ⟨by simp [emptyMultiGraph], ?_⟩
      intro h1
      simp [emptyMultiGraph] at h1
    have h2 : List.count (u, v, r) ms = 0 := by
      rw [List.count_eq_zero]
      intro hmem
      exact hr (hall _ hmem)
    omega

/-- C2 witness: a concrete assembly with a repeated valid triple has at
most one `defines` edge for the pair. -/
theorem semantic_edges_collapsed_witness :
    List.count ("X", "Y", "defines")
      (edgesOf (assemble [("X", "defines", "Y"), ("X", "defines", "Y")]
        [("1", ["Kernel"])])) ≤ 1 :=
  semantic_edges_collapsed [("X", "defines", "Y"), ("X", "defines", "Y")]
    [("1", ["Kernel"])] "X" "Y" "defines" (by decide)

/-- C7 counterexample: re-adding an already-present node does not always
leave its kind tag unchanged — an entity node named `DOC_1` created by
the triple pass is re-added as a document node during document linking,
which overwrites its kind tag from `entity` to `document`. -/
theorem readd_node_changes_kind :
    lookupNode (addTriples emptyMultiGraph [("DOC_1", "defines", "Y")]).nodes "DOC_1"
        = some ⟨some "entity", none⟩ ∧
      lookupNode (nodesOf (assemble [("DOC_1", "defines", "Y")] [("1", ["Kernel"])])) "DOC_1"
        = some ⟨some "document", some 1⟩ := by
  constructor <;> decide

/-- C7 (amended): re-adding an already-present node with the same kind
is a no-op on its attributes: re-adding a node whose kind tag is
`entity` as an entity (triple endpoint or mentioned entity), or a node
whose attributes are exactly `document`/`doc_id = k` as that document
node, leaves the node list unchanged.  When the kinds differ (an entity
node re-added as a document node or vice versa) the kind tag is
overwritten instead. -/
theorem readd_same_kind_noop (g : Graph) (n : String) (nd : NodeData)
    (hnodup : (g.nodes.map Prod.fst).Nodup)
    (hl : lookupNode g.nodes n = some nd) :
    (nd.typ = some "entity" → addEntityNode g n = g) ∧
      (∀ k : Int, nd = ⟨some "document", some k⟩ → addDocumentNode g n k = g) := by
  constructor
  · intro htyp
    refine addNodeWith_eq_self g n _ nd hnodup hl ?_
    obtain ⟨typ, docId⟩ := nd
    have ht : typ = some "entity" := htyp
    rw [ht]
  · intro k hnd
    refine addNodeWith_eq_self g n _ nd hnodup hl ?_
    rw [hnd]

/-- C7 witness: re-adding the entity node `A` and the document node
`DOC_1` of a concrete graph with their existing kinds changes nothing. -/
theorem readd_same_kind_noop_witness :
    addEntityNode ⟨[("A", ⟨some "entity", none⟩), ("DOC_1", ⟨some "document", some 1⟩)], []⟩ "A"
        = ⟨[("A", ⟨some "entity", none⟩), ("DOC_1", ⟨some "document", some 1⟩)], []⟩ ∧
      addDocumentNode ⟨[("A", ⟨some "entity", none⟩), ("DOC_1", ⟨some "document", some 1⟩)], []⟩ "DOC_1" 1
        = ⟨[("A", ⟨some "entity", none⟩), ("DOC_1", ⟨some "document", some 1⟩)], []⟩ :=
  ⟨(readd_same_kind_noop _ "A" ⟨some "entity", none⟩ (by decide) (by decide)).1 rfl,
   (readd_same_kind_noop _ "DOC_1" ⟨some "document", some 1⟩ (by decide) (by decide)).2 1 rfl⟩

/-- C9: when a required input artifact is absent, builder initialization
fails with an error naming a missing file, and no graph is produced —
assembly never starts, so no node or edge is ever added. -/
theorem missing_input_aborts (present : String → Bool) (corpus : String)
    (hmiss : present (corpus ++ "/doc_entities.json") = false ∨
      present (corpus ++ "/triples.json") = false) :
    ∃ p ∈ requiredFiles corpus, present p = false ∧
      initGraphBuilder present corpus = Except.error (missingFileMsg p) := by
  cases hb : present (corpus ++ "/doc_entities.json") with
  | false =>
    refine ⟨corpus ++ "/doc_entities.json", by simp [requiredFiles], hb, ?_⟩
    simp [initGraphBuilder, checkRequiredFiles, requiredFiles, List.find?, hb]
  | true =>
    have h2 : present (corpus ++ "/triples.json") = false := by
      rcases hmiss with hm | hm
      · rw [hb] at hm; exact absurd hm (by simp)
      · exact hm
    refine ⟨corpus ++ "/triples.json", by simp [requiredFiles], h2, ?_⟩
    simp [initGraphBuilder, checkRequiredFiles, requiredFiles, List.find?, hb, h2]

/-- C9 witness: with no file present, initialization fails naming a
missing required file. -/
theorem missing_input_aborts_witness :
    ∃ p ∈ requiredFiles "corpus", (fun _ : String => false) p = false ∧
      initGraphBuilder (fun _ => false) "corpus" = Except.error (missingFileMsg p) :=
  missing_input_aborts (fun _ => false) "corpus" (Or.inl rfl)

/-! ### Settled claims about the extraction pipeline -/

lemma dictUpdate_ne_nil (m : List (String × List String)) (kv : String × List String) :
    dictUpdate m kv ≠ [] := by
  by_cases h : m.any (fun p => p.1 == kv.1) = true
  · simp only [dictUpdate, if_pos h]
    intro hc
    rw [List.map_eq_nil_iff] at hc
    subst hc
    simp at h
  · simp only [dictUpdate, if_neg h]
    simp

/-- The `run` fold produces an empty mapping exactly when it started
empty and every document was skipped. -/
lemma extractorFold_eq_nil (oracle : List Char → List String) :
    ∀ (files : List String) (acc : List (String × List String)),
    (files.foldl (fun acc c =>
      match processFile oracle c with
      | none => acc
      | some kv => dictUpdate acc kv) acc = []) ↔
    (acc = [] ∧ ∀ c ∈ files, processFile oracle c = none) := by
  intro files
  induction files with
  | nil => intro acc; simp
  | cons c rest ih =>
    intro acc
    rw [List.foldl_cons]
    cases hc : processFile oracle c with
    | none =>
      simp only [hc]
      rw [ih]
      simp [hc]
    | some kv =>
      simp only [hc]
      rw [ih]
      constructor
      · rintro ⟨hnil, _⟩
        exact absurd hnil (dictUpdate_ne_nil acc kv)
      · rintro ⟨_, hall⟩
        exact absurd (hall c (by simp)) (by simp [hc])

/-- C10 (implicit frame effect): the extractor writes nothing — leaving
a previously existing `doc_entities.json` untouched — exactly when there
are no corpus files or every document is skipped or yields an empty
entity list; and any entry that is produced has a non-empty entity list,
so the artifact is rewritten only when at least one document yields a
non-empty list. -/
theorem extractor_run_writes_iff (oracle : List Char → List String) (files : List String) :
    (extractorRun oracle files = none ↔
      files = [] ∨ ∀ c ∈ files, processFile oracle c = none) ∧
    (∀ (c : String) (d : String) (es : List String),
      processFile oracle c = some (d, es) → es ≠ []) := by
  constructor
  · unfold extractorRun
    by_cases hf : files = []
    · simp [hf]
    · rw [if_neg hf]
      by_cases hr : (files.foldl (fun acc c =>
          match processFile oracle c with
          | none => acc
          | some kv => dictUpdate acc kv) []) = []
      · rw [if_pos hr]
        have hall := ((extractorFold_eq_nil oracle files []).mp hr).2
        exact ⟨fun _ => Or.inr hall, fun _ => rfl⟩
      · rw [if_neg hr]
        constructor
        · intro hc
          exact absurd hc (by simp)
        · rintro (hc | hall)
          · exact absurd hc hf
          · exact absurd ((extractorFold_eq_nil oracle files []).mpr ⟨rfl, hall⟩) hr
  · intro c d es hc
    simp only [processFile] at hc
    split at hc
    · exact absurd hc (by simp)
    · split at hc
      · exact absurd hc (by simp)
      · split at hc
        · exact absurd hc (by simp)
        · rename_i hcl
          injection hc with h1
          injection h1 with h2 h3
          rw [← h3]
          exact hcl

/-- C10 witness: an empty corpus writes nothing. -/
theorem extractor_run_writes_iff_witness :
    extractorRun (fun _ => []) [] = none :=
  ((extractor_run_writes_iff (fun _ => []) []).1).mpr (Or.inl rfl)

/-- C8 counterexample: a document whose first line matches nothing still
contributes a mapping entry, because `re.search` scans the whole
content: the `doc_id: 7` on the second line is found and used. -/
theorem docid_found_beyond_first_line :
    searchDocId (firstLine "hello\ndoc_id: 7\nbody").data = none ∧
      processFile (fun _ => ["KernelDriver"]) "hello\ndoc_id: 7\nbody"
        = some ("7", ["Kerneldriver"]) := by
  constructor <;> decide

/-- C8 (amended): the doc_id is parsed by searching the fixed pattern
`doc_id: <integer>` anywhere in the document (first match), not only in
the first line; a document in which the pattern occurs nowhere is
skipped with no entry in the result mapping. -/
theorem no_docid_anywhere_skipped (oracle : List Char → List String) (content : String)
    (h : searchDocId content.data = none) :
    processFile oracle content = none := by
  simp only [processFile, h]

/-- C8 witness: a document with no `doc_id` pattern at all is skipped. -/
theorem no_docid_anywhere_skipped_witness :
    processFile (fun _ => ["KernelDriver"]) "hello there" = none :=
  no_docid_anywhere_skipped (fun _ => ["KernelDriver"]) "hello there" (by decide)

/-! ### Character-level facts for the normalizer -/

lemma char_toNat_ofNat {n : Nat} (h : n.isValidChar) : (Char.ofNat n).toNat = n := by
  simp [Char.ofNat, dif_pos h, Char.ofNatAux, Char.toNat, UInt32.toNat]

lemma char_eq_of_toNat {c d : Char} (h : c.toNat = d.toNat) : c = d :=
  Char.ext (UInt32.ext h)

lemma toUpper_toNat (c : Char) :
    c.toUpper.toNat = if 97 ≤ c.toNat ∧ c.toNat ≤ 122 then c.toNat - 32 else c.toNat := by
  unfold Char.toUpper
  by_cases h : 97 ≤ c.toNat ∧ c.toNat ≤ 122
  · rw [if_pos h, if_pos h, char_toNat_ofNat (by left; omega)]
  · rw [if_neg h, if_neg h]

lemma toLower_toNat (c : Char) :
    c.toLower.toNat = if 65 ≤ c.toNat ∧ c.toNat ≤ 90 then c.toNat + 32 else c.toNat := by
  unfold Char.toLower
  by_cases h : 65 ≤ c.toNat ∧ c.toNat ≤ 90
  · rw [if_pos h, if_pos h, char_toNat_ofNat (by left; omega)]
  · rw [if_neg h, if_neg h]

lemma toUpper_toUpper (c : Char) : c.toUpper.toUpper = c.toUpper := by
  refine char_eq_of_toNat ?_
  rw [toUpper_toNat, toUpper_toNat]
  split_ifs <;> omega


lemma isAlphanum_toNat (c : Char) :
    c.isAlphanum = true ↔
      (48 ≤ c.toNat ∧ c.toNat ≤ 57) ∨ (65 ≤ c.toNat ∧ c.toNat ≤ 90) ∨
        (97 ≤ c.toNat ∧ c.toNat ≤ 122) := by
  simp only [Char.isAlphanum, Char.isAlpha, Char.isUpper, Char.isLower, Char.isDigit,
    Bool.or_eq_true, Bool.and_eq_true, decide_eq_true_eq]
  constructor
  · rintro ((⟨h1, h2⟩ | ⟨h1, h2⟩) | ⟨h1, h2⟩)
    · exact Or.inr (Or.inl ⟨h1, h2⟩)
    · exact Or.inr (Or.inr ⟨h1, h2⟩)
    · exact Or.inl ⟨h1, h2⟩
  · rintro (⟨h1, h2⟩ | ⟨h1, h2⟩ | ⟨h1, h2⟩)
    · exact Or.inr ⟨h1, h2⟩
    · exact Or.inl (Or.inl ⟨h1, h2⟩)
    · exact Or.inl (Or.inr ⟨h1, h2⟩)

lemma pyIsWordChar_toNat (c : Char) :
    pyIsWordChar c = true ↔
      (48 ≤ c.toNat ∧ c.toNat ≤ 57) ∨ (65 ≤ c.toNat ∧ c.toNat ≤ 90) ∨
        (97 ≤ c.toNat ∧ c.toNat ≤ 122) ∨ c.toNat = 95 := by
  simp only [pyIsWordChar, Bool.or_eq_true, beq_iff_eq, isAlphanum_toNat]
  constructor
  · rintro (h | rfl)
    · tauto
    · exact Or.inr (Or.inr (Or.inr rfl))
  · rintro (h | h | h | h)
    · exact Or.inl (Or.inl h)
    · exact Or.inl (Or.inr (Or.inl h))
    · exact Or.inl (Or.inr (Or.inr h))
    · exact Or.inr (@char_eq_of_toNat c '_' h)

lemma pyIsSpace_toNat (c : Char) :
    pyIsSpace c = true ↔
      (c.toNat = 32 ∨ c.toNat = 9 ∨ c.toNat = 10 ∨ c.toNat = 13 ∨
        c.toNat = 11 ∨ c.toNat = 12) := by
  simp only [pyIsSpace, Bool.or_eq_true, beq_iff_eq]
  constructor
  · rintro (((((rfl | rfl) | rfl) | rfl) | rfl) | rfl) <;> decide
  · rintro (h | h | h | h | h | h)
    · exact Or.inl (Or.inl (Or.inl (Or.inl (Or.inl (@char_eq_of_toNat c ' ' h)))))
    · exact Or.inl (Or.inl (Or.inl (Or.inl (Or.inr (@char_eq_of_toNat c '\t' h)))))
    · exact Or.inl (Or.inl (Or.inl (Or.inr (@char_eq_of_toNat c '\n' h))))
    · exact Or.inl (Or.inl (Or.inr (@char_eq_of_toNat c '\r' h)))
    · exact Or.inl (Or.inr (@char_eq_of_toNat c '\x0b' h))
    · exact Or.inr (@char_eq_of_toNat c '\x0c' h)

lemma pyIsWordChar_toUpper {c : Char} (h : pyIsWordChar c = true) :
    pyIsWordChar c.toUpper = true := by
  rw [pyIsWordChar_toNat] at h ⊢
  rw [toUpper_toNat]
  by_cases hr : 97 ≤ c.toNat ∧ c.toNat ≤ 122
  · rw [if_pos hr]; omega
  · rw [if_neg hr]; omega

lemma pyIsWordChar_toLower {c : Char} (h : pyIsWordChar c = true) :
    pyIsWordChar c.toLower = true := by
  rw [pyIsWordChar_toNat] at h ⊢
  rw [toLower_toNat]
  by_cases hr : 65 ≤ c.toNat ∧ c.toNat ≤ 90
  · rw [if_pos hr]; omega
  · rw [if_neg hr]; omega

lemma pyIsWordChar_not_space {c : Char} (h : pyIsWordChar c = true) :
    pyIsSpace c = false := by
  rw [Bool.eq_false_iff]
  intro hs
  rw [pyIsSpace_toNat] at hs
  rw [pyIsWordChar_toNat] at h
  omega

/-! ### Token-level facts for the normalizer -/

/-- Every character of every token produced by the splitter comes from
the current token buffer or the remaining input, and is not whitespace
(provided the buffer holds no whitespace). -/
lemma splitWsAux_chars : ∀ (l cur tok : List Char),
    (∀ x ∈ cur, pyIsSpace x = false) → tok ∈ splitWsAux l cur →
    ∀ x ∈ tok, (x ∈ cur ∨ x ∈ l) ∧ pyIsSpace x = false := by
  intro l
  induction l with
  | nil =>
    intro cur tok hcur htok x hx
    rw [splitWsAux] at htok
    by_cases hc : cur = []
    · rw [if_pos hc] at htok
      exact absurd htok (by simp)
    · rw [if_neg hc] at htok
      have : tok = cur.reverse := by simpa using htok
      subst this
      have hxc : x ∈ cur := List.mem_reverse.mp hx
      exact ⟨Or.inl hxc, hcur x hxc⟩
  | cons c rest ih =>
    intro cur tok hcur htok x hx
    rw [splitWsAux] at htok
    by_cases hsp : pyIsSpace c
    · rw [if_pos hsp] at htok
      by_cases hc : cur = []
      · rw [if_pos hc] at htok
        have := ih [] tok (by simp) htok x hx
        rcases this with ⟨hm | hm, hns⟩
        · exact absurd hm (by simp)
        · exact ⟨Or.inr (List.mem_cons_of_mem c hm), hns⟩
      · rw [if_neg hc] at htok
        rcases List.mem_cons.mp htok with rfl | htok'
        · have hxc : x ∈ cur := List.mem_reverse.mp hx
          exact ⟨Or.inl hxc, hcur x hxc⟩
        · have := ih [] tok (by simp) htok' x hx
          rcases this with ⟨hm | hm, hns⟩
          · exact absurd hm (by simp)
          · exact ⟨Or.inr (List.mem_cons_of_mem c hm), hns⟩
    · rw [if_neg hsp] at htok
      have hcur' : ∀ y ∈ c :: cur, pyIsSpace y = false := by
        intro y hy
        rcases List.mem_cons.mp hy with rfl | hy'
        · exact Bool.eq_false_iff.mpr hsp
        · exact hcur y hy'
      have := ih (c :: cur) tok hcur' htok x hx
      rcases this with ⟨hm, hns⟩
      refine ⟨?_, hns⟩
      rcases hm with hm | hm
      · rcases List.mem_cons.mp hm with rfl | hm'
        · exact Or.inr (List.mem_cons_self x rest)
        · exact Or.inl hm'
      · exact Or.inr (List.mem_cons_of_mem c hm)

/-- The splitter never produces an empty token. -/
lemma splitWsAux_ne_nil : ∀ (l cur : List Char), [] ∉ splitWsAux l cur := by
  intro l
  induction l with
  | nil =>
    intro cur
    rw [splitWsAux]
    by_cases hc : cur = []
    · rw [if_pos hc]; simp
    · rw [if_neg hc]
      simp only [List.mem_singleton]
      intro hrev
      exact hc (by simpa using congrArg List.reverse hrev.symm)
  | cons c rest ih =>
    intro cur
    rw [splitWsAux]
    by_cases hsp : pyIsSpace c
    · rw [if_pos hsp]
      by_cases hc : cur = []
      · rw [if_pos hc]; exact ih []
      · rw [if_neg hc]
        intro hmem
        rcases List.mem_cons.mp hmem with hrev | hmem'
        · exact hc (by simpa using congrArg List.reverse hrev)
        · exact ih [] hmem'
    · rw [if_neg hsp]; exact ih (c :: cur)

/-- On whitespace-free input the splitter returns the single token
`cur.reverse ++ l` (or nothing when that is empty). -/
lemma splitWsAux_nospace : ∀ (l cur : List Char),
    (∀ x ∈ l, pyIsSpace x = false) →
    splitWsAux l cur = if cur.reverse ++ l = [] then [] else [cur.reverse ++ l] := by
  intro l
  induction l with
  | nil => intro cur _; simp [splitWsAux]
  | cons c rest ih =>
    intro cur hl
    rw [splitWsAux, if_neg (Bool.eq_false_iff.mp (hl c (List.mem_cons_self c rest)))]
    rw [ih (c :: cur) (fun x hx => hl x (List.mem_cons_of_mem c hx))]
    have hne : cur.reverse ++ c :: rest ≠ [] := by simp
    have hne2 : (c :: cur).reverse ++ rest ≠ [] := by simp
    rw [if_neg hne2, if_neg hne]
    simp

/-- Every character of the normalizer's output is a word character. -/
lemma toCamelCaseList_chars (l : List Char) :
    ∀ x ∈ toCamelCaseList l, pyIsWordChar x = true := by
  intro x hx
  unfold toCamelCaseList at hx
  rw [List.mem_flatten] at hx
  obtain ⟨cap, hcap, hxcap⟩ := hx
  rw [List.mem_map] at hcap
  obtain ⟨tok, htok, rfl⟩ := hcap
  have htokchars : ∀ y ∈ tok, pyIsWordChar y = true := by
    intro y hy
    have := splitWsAux_chars (reSubClean l) [] tok (by simp) htok y hy
    rcases this with ⟨hm | hm, hns⟩
    · exact absurd hm (by simp)
    · have hkeep : pyKeepChar y = true := List.of_mem_filter hm
      rw [pyKeepChar, Bool.or_eq_true] at hkeep
      rcases hkeep with hw | hs
      · exact hw
      · rw [hns] at hs; exact absurd hs (by simp)
  cases tok with
  | nil => exact absurd hxcap (by simp [pyCapitalize])
  | cons c cs =>
    rw [pyCapitalize] at hxcap
    rcases List.mem_cons.mp hxcap with rfl | hxcs
    · exact pyIsWordChar_toUpper (htokchars c (List.mem_cons_self c cs))
    · rw [List.mem_map] at hxcs
      obtain ⟨y, hy, rfl⟩ := hxcs
      exact pyIsWordChar_toLower (htokchars y (List.mem_cons_of_mem c hy))

/-- The normalizer's output is empty or starts with an upper-cased
character. -/
lemma toCamelCaseList_shape (l : List Char) :
    toCamelCaseList l = [] ∨
      ∃ (c : Char) (r : List Char), toCamelCaseList l = c.toUpper :: r := by
  unfold toCamelCaseList
  cases hsp : pySplitWs (reSubClean l) with
  | nil => left; rfl
  | cons tok toks =>
    right
    have htokne : tok ≠ [] := by
      intro hc
      subst hc
      have hmem : ([] : List Char) ∈ pySplitWs (reSubClean l) := by
        rw [hsp]; exact List.mem_cons_self [] toks
      rw [pySplitWs] at hmem
      exact splitWsAux_ne_nil (reSubClean l) [] hmem
    cases tok with
    | nil => exact absurd rfl htokne
    | cons c cs =>
      exact ⟨c, cs.map Char.toLower ++ (toks.map pyCapitalize).flatten,
        by simp [pyCapitalize]⟩

/-- List-level idempotence of the normalizer on outputs whose interior
characters are already lower-case-stable. -/
lemma toCamelCaseList_idem (l : List Char)
    (h : ∀ c ∈ (toCamelCaseList l).tail, Char.toLower c = c) :
    toCamelCaseList (toCamelCaseList l) = toCamelCaseList l := by
  have hword : ∀ x ∈ toCamelCaseList l, pyIsWordChar x = true := toCamelCaseList_chars l
  have hns : ∀ x ∈ toCamelCaseList l, pyIsSpace x = false :=
    fun x hx => pyIsWordChar_not_space (hword x hx)
  have hfilter : reSubClean (toCamelCaseList l) = toCamelCaseList l := by
    refine List.filter_eq_self.mpr ?_
    intro a ha
    rw [pyKeepChar, hword a ha]
    rfl
  rcases toCamelCaseList_shape l with hnil | ⟨c, r, hcr⟩
  · rw [hnil]; rfl
  · have htne : toCamelCaseList l ≠ [] := by rw [hcr]; simp
    conv_lhs => rw [toCamelCaseList]
    rw [hfilter, pySplitWs, splitWsAux_nospace (toCamelCaseList l) [] hns]
    rw [List.reverse_nil, List.nil_append, if_neg htne]
    rw [List.map_singleton, List.flatten_singleton]
    rw [hcr, pyCapitalize, toUpper_toUpper]
    congr 1
    have hr : ∀ x ∈ r, Char.toLower x = x := by
      intro x hx
      refine h x ?_
      rw [hcr]
      exact hx
    calc r.map Char.toLower = r.map id := List.map_congr_left hr
      _ = r := List.map_id r

/-- C3 counterexample: normalization is not idempotent — a multi-token
input produces interior capitals which a second application lowers. -/
theorem normalize_not_idempotent :
    toCamelCase "foo bar" = "FooBar" ∧
      toCamelCase (toCamelCase "foo bar") = "Foobar" ∧
      ("Foobar" : String) ≠ "FooBar" := by
  refine ⟨by decide, by decide, by decide⟩

/-- C3 (amended): normalization is deterministic, and it is idempotent
exactly on the inputs whose normalized form has no interior character
changed by lower-casing (in particular every single-token input); for
such inputs normalizing twice equals normalizing once.  In general the
second application lowercases the interior capitals introduced by token
concatenation, as the counterexample shows. -/
theorem normalize_idempotent_without_interior_uppercase (s : String)
    (h : ∀ c ∈ (toCamelCase s).data.tail, Char.toLower c = c) :
    toCamelCase (toCamelCase s) = toCamelCase s :=
  congrArg String.mk (toCamelCaseList_idem s.data h)

/-- C3 witness: a single-token input is normalized idempotently. -/
theorem normalize_idempotent_witness :
    toCamelCase (toCamelCase "Hello") = toCamelCase "Hello" :=
  normalize_idempotent_without_interior_uppercase "Hello" (by decide)

/-- C5 counterexample: the normalizer's output is not alphanumeric-only
— underscores survive, because Python's `\w` class keeps them. -/
theorem normalizer_keeps_underscore :
    toCamelCase "a_b" = "A_b" ∧ '_' ∈ (toCamelCase "a_b").data ∧
      '_'.isAlphanum = false := by
  refine ⟨by decide, by decide, by decide⟩

/-- C5 (amended): every character of the normalizer's output is a word
character — alphanumeric or underscore: the normalizer strips every
character that is neither a word character (alphanumeric or underscore)
nor whitespace, splits on whitespace, capitalizes tokens and
concatenates, so no whitespace or non-underscore punctuation remains. -/
theorem normalizer_output_word_chars (s : String) (c : Char)
    (hc : c ∈ (toCamelCase s).data) :
    c.isAlphanum = true ∨ c = '_' := by
  have hw := toCamelCaseList_chars s.data c hc
  rw [pyIsWordChar, Bool.or_eq_true, beq_iff_eq] at hw
  exact hw

/-- C5 witness: the first character of a concrete normalized string is
alphanumeric. -/
theorem normalizer_output_word_chars_witness :
    'A'.isAlphanum = true ∨ 'A' = '_' :=
  normalizer_output_word_chars "a b" 'A' (by decide)

/-! ### Facts about strip and the deduplicator -/

lemma dropWhile_eq_self_of_headD {p : Char → Bool} {l : List Char}
    (h : ∀ x, l.head? = some x → p x = false) : List.dropWhile p l = l := by
  cases l with
  | nil => rfl
  | cons x xs =>
    rw [List.dropWhile_cons, if_neg]
    simp [h x rfl]

lemma pyStripList_eq_self {l : List Char}
    (h1 : ∀ x, l.head? = some x → pyIsSpace x = false)
    (h2 : ∀ x, l.getLast? = some x → pyIsSpace x = false) :
    pyStripList l = l := by
  unfold pyStripList
  rw [dropWhile_eq_self_of_headD h1,
    dropWhile_eq_self_of_headD (fun x hx => h2 x (by rwa [List.head?_reverse] at hx)),
    List.reverse_reverse]

lemma pyStripList_getLast {l : List Char} :
    ∀ x, (pyStripList l).getLast? = some x → pyIsSpace x = false := by
  intro x hx
  unfold pyStripList at hx
  rw [List.getLast?_reverse] at hx
  have := List.head?_dropWhile_not pyIsSpace (l.dropWhile pyIsSpace).reverse
  rw [hx] at this
  simpa using this

lemma pyStripList_head {l : List Char} :
    ∀ x, (pyStripList l).head? = some x → pyIsSpace x = false := by
  intro x hx
  unfold pyStripList at hx
  rw [List.head?_reverse] at hx
  have hbne : (List.dropWhile pyIsSpace (l.dropWhile pyIsSpace).reverse) ≠ [] := by
    intro hc
    rw [hc] at hx
    exact absurd hx (by simp)
  obtain ⟨s, hs⟩ := (List.dropWhile_suffix pyIsSpace :
    List.dropWhile pyIsSpace (l.dropWhile pyIsSpace).reverse <:+ (l.dropWhile pyIsSpace).reverse)
  have hlast : (l.dropWhile pyIsSpace).reverse.getLast? = some x := by
    rw [← hs, List.getLast?_append_of_ne_nil s hbne]
    exact hx
  rw [List.getLast?_reverse] at hlast
  have := List.head?_dropWhile_not pyIsSpace l
  rw [hlast] at this
  simpa using this

lemma pyStrip_idem (s : String) : pyStrip (pyStrip s) = pyStrip s :=
  congrArg String.mk
    (pyStripList_eq_self (fun x hx => pyStripList_head x hx)
      (fun x hx => pyStripList_getLast x hx))

/-- One-step unfolding of the `_deduplicate` loop. -/
lemma dedupAccum_cons (sim : String → String → ℚ) (uniq : List String)
    (e : String) (rest : List String) :
    dedupAccum sim uniq (e :: rest) =
      if (pyStrip e).length ≤ 2 ∨ pyStrip e ∈ STOPWORDS then dedupAccum sim uniq rest
      else if ∃ u ∈ uniq, sim (pyLower (pyStrip e)) (pyLower u) > DUP_THRESHOLD then
        dedupAccum sim uniq rest
      else dedupAccum sim (uniq ++ [pyStrip e]) rest := by
  rw [dedupAccum]

/-- Invariant of the `_deduplicate` accumulator: every accepted string
is stripped, long enough and not a stop word, and every accepted string
is within the threshold of each earlier accepted one. -/
lemma dedupAccum_invariant (sim : String → String → ℚ) (l : List String) : ∀ uniq,
    (∀ x ∈ uniq, pyStrip x = x ∧ ¬(x.length ≤ 2 ∨ x ∈ STOPWORDS)) →
    List.Pairwise (fun u v => sim (pyLower v) (pyLower u) ≤ DUP_THRESHOLD) uniq →
    (∀ x ∈ dedupAccum sim uniq l, pyStrip x = x ∧ ¬(x.length ≤ 2 ∨ x ∈ STOPWORDS)) ∧
      List.Pairwise (fun u v => sim (pyLower v) (pyLower u) ≤ DUP_THRESHOLD)
        (dedupAccum sim uniq l) := by
  induction l with
  | nil => intro uniq hmem hpw; exact ⟨hmem, hpw⟩
  | cons e rest ih =>
    intro uniq hmem hpw
    rw [dedupAccum_cons]
    by_cases h1 : (pyStrip e).length ≤ 2 ∨ pyStrip e ∈ STOPWORDS
    · rw [if_pos h1]
      exact ih uniq hmem hpw
    · rw [if_neg h1]
      by_cases h2 : ∃ u ∈ uniq, sim (pyLower (pyStrip e)) (pyLower u) > DUP_THRESHOLD
      · rw [if_pos h2]
        exact ih uniq hmem hpw
      · rw [if_neg h2]
        refine ih (uniq ++ [pyStrip e]) ?_ ?_
        · intro x hx
          rcases List.mem_append.mp hx with hx' | hx'
          · exact hmem x hx'
          · have hxe : x = pyStrip e := by simpa using hx'
            subst hxe
            exact ⟨pyStrip_idem e, h1⟩
        · rw [List.pairwise_append]
          refine ⟨hpw, by simp, ?_⟩
          intro a ha b hb
          have hbe : b = pyStrip e := by simpa using hb
          subst hbe
          push_neg at h2
          exact h2 a ha

/-- A run of the `_deduplicate` accumulator over inputs that all pass
the filters and are pairwise within the threshold accepts everything. -/
lemma dedupAccum_all (sim : String → String → ℚ) :
    ∀ (l acc : List String),
    (∀ x ∈ l, pyStrip x = x ∧ ¬(x.length ≤ 2 ∨ x ∈ STOPWORDS)) →
    List.Pairwise (fun u v => sim (pyLower v) (pyLower u) ≤ DUP_THRESHOLD) (acc ++ l) →
    dedupAccum sim acc l = acc ++ l := by
  intro l
  induction l with
  | nil => intro acc _ _; simp [dedupAccum]
  | cons x rest ih =>
    intro acc hl hpw
    obtain ⟨hx1, hx2⟩ := hl x (List.mem_cons_self x rest)
    have hnosim : ¬∃ u ∈ acc, sim (pyLower x) (pyLower u) > DUP_THRESHOLD := by
      rintro ⟨u, hu, hgt⟩
      have hR := (List.pairwise_append.mp hpw).2.2 u hu x (List.mem_cons_self x rest)
      exact absurd hgt (not_lt.mpr hR)
    rw [dedupAccum_cons, hx1, if_neg hx2, if_neg hnosim]
    have hpw2 : List.Pairwise (fun u v => sim (pyLower v) (pyLower u) ≤ DUP_THRESHOLD)
        ((acc ++ [x]) ++ rest) := by
      rw [List.append_assoc]
      simpa using hpw
    rw [ih (acc ++ [x]) (fun y hy => hl y (List.mem_cons_of_mem x hy)) hpw2,
      List.append_assoc]
    simp

/-- Properties of the deduplicator's output: elements pass the filters
and are pairwise within the threshold in both directions (using the
symmetry of the similarity). -/
lemma deduplicate_pairwise (sim : String → String → ℚ)
    (hsym : ∀ a b, sim a b = sim b a) (l : List String) :
    (∀ x ∈ deduplicate sim l, pyStrip x = x ∧ ¬(x.length ≤ 2 ∨ x ∈ STOPWORDS)) ∧
      List.Pairwise (fun u v => sim (pyLower u) (pyLower v) ≤ DUP_THRESHOLD ∧
        sim (pyLower v) (pyLower u) ≤ DUP_THRESHOLD) (deduplicate sim l) := by
  obtain ⟨hmem, hpw⟩ := dedupAccum_invariant sim l [] (by simp) (by simp)
  have hperm : List.Perm (List.insertionSort (fun a b => a ≤ b) (dedupAccum sim [] l))
      (dedupAccum sim [] l) :=
    List.perm_insertionSort _ _
  have hS : List.Pairwise (fun u v => sim (pyLower u) (pyLower v) ≤ DUP_THRESHOLD ∧
      sim (pyLower v) (pyLower u) ≤ DUP_THRESHOLD) (dedupAccum sim [] l) := by
    refine hpw.imp ?_
    intro u v hr
    exact ⟨by rw [hsym]; exact hr, hr⟩
  refine ⟨fun x hx => hmem x (hperm.mem_iff.mp hx), ?_⟩
  exact (hperm.pairwise_iff (fun hxy => ⟨hxy.2, hxy.1⟩)).mpr hS

/-- C6: deduplication is idempotent, for any symmetric similarity
function (the external Jaro–Winkler similarity is symmetric): the
deduplicator's output passes all its filters and is pairwise within the
threshold, so a second run accepts everything, and sorting an already
sorted list changes nothing. -/
theorem deduplicate_idempotent (sim : String → String → ℚ)
    (hsym : ∀ a b, sim a b = sim b a) (l : List String) :
    deduplicate sim (deduplicate sim l) = deduplicate sim l := by
  obtain ⟨hmem, hpw⟩ := deduplicate_pairwise sim hsym l
  have key : dedupAccum sim [] (deduplicate sim l) = deduplicate sim l := by
    have h := dedupAccum_all sim (deduplicate sim l) []
      (fun x hx => hmem x hx) (by simpa using hpw.imp (fun h => h.2))
    simpa using h
  calc deduplicate sim (deduplicate sim l)
      = List.insertionSort (fun a b => a ≤ b) (dedupAccum sim [] (deduplicate sim l)) := rfl
    _ = List.insertionSort (fun a b => a ≤ b) (deduplicate sim l) := by rw [key]
    _ = deduplicate sim l :=
        List.Sorted.insertionSort_eq (List.sorted_insertionSort _ (dedupAccum sim [] l))

/-- C6 witness: idempotence at a concrete similarity and input. -/
theorem deduplicate_idempotent_witness :
    deduplicate (fun _ _ => (0 : ℚ)) (deduplicate (fun _ _ => (0 : ℚ)) ["Kernel", "Scheduler"])
      = deduplicate (fun _ _ => (0 : ℚ)) ["Kernel", "Scheduler"] :=
  deduplicate_idempotent (fun _ _ => (0 : ℚ)) (fun _ _ => rfl) ["Kernel", "Scheduler"]

/-- Model of the similarity shortcut: two equal strings have similarity
exactly 1 under the Jaro–Winkler model. -/
lemma jaroWinkler_self (a : String) : jaroWinkler a a = 1 := by
  rw [jaroWinkler, jaroSim, if_pos rfl]
  norm_num

/-- C4 counterexample: in `["App", "app"]` the two strings have
case-insensitive similarity 1 (above the 0.85 threshold), yet the
survivor is the string at index 1, not index 0 — `"App"` is dropped by
the case-sensitive stop-word filter, after which `"app"` is accepted. -/
theorem first_seen_wins_violated :
    deduplicate jaroWinkler ["App", "app"] = ["app"] ∧
      jaroWinkler (pyLower (pyStrip "app")) (pyLower (pyStrip "App")) > DUP_THRESHOLD ∧
      ("App" : String) ≠ "app" := by
  refine ⟨by decide, ?_, by decide⟩
  have h1 : pyLower (pyStrip "app") = "app" := by decide
  have h2 : pyLower (pyStrip "App") = "app" := by decide
  rw [h1, h2, jaroWinkler_self, DUP_THRESHOLD]
  norm_num

/-- C4 (amended): for any two distinct positions `i < j` whose stripped
strings differ and have case-insensitive similarity strictly above the
0.85 threshold (for a symmetric similarity), at most one of the two
strings appears in the deduplicator's output.  The survivor is the one
at the smaller index only when that string itself survives the length,
stop-word and earlier-similarity filters; as the counterexample shows,
when the earlier string is filtered out the later one can survive. -/
theorem similar_pair_not_both_kept (sim : String → String → ℚ)
    (hsym : ∀ a b, sim a b = sim b a) (l : List String) (i j : Nat)
    (_hj : j < l.length) (_hij : i < j)
    (hsim : sim (pyLower (pyStrip (l.getD i ""))) (pyLower (pyStrip (l.getD j "")))
      > DUP_THRESHOLD)
    (hne : pyStrip (l.getD i "") ≠ pyStrip (l.getD j "")) :
    ¬(pyStrip (l.getD i "") ∈ deduplicate sim l ∧
      pyStrip (l.getD j "") ∈ deduplicate sim l) := by
  rintro ⟨hi, hjm⟩
  have hpw := (deduplicate_pairwise sim hsym l).2
  have hR := List.Pairwise.forall (fun u v huv => ⟨huv.2, huv.1⟩) hpw hi hjm hne
  exact absurd hsim (not_lt.mpr hR.1)

/-- C4 witness: for a similarity that rates every pair as 1, two
distinct strings above the threshold never both survive. -/
theorem similar_pair_not_both_kept_witness :
    ¬(pyStrip "abcd" ∈ deduplicate (fun _ _ => (1 : ℚ)) ["abcd", "efgh"] ∧
      pyStrip "efgh" ∈ deduplicate (fun _ _ => (1 : ℚ)) ["abcd", "efgh"]) :=
  similar_pair_not_both_kept (fun _ _ => (1 : ℚ)) (fun _ _ => rfl)
    ["abcd", "efgh"] 0 1 (by decide) (by decide)
    (by rw [DUP_THRESHOLD]; norm_num) (by decide)
